import Mathlib

/-!
Verification of the index-generation scripts of the fallout2-modding
repository (`website/scripts/generate-function-index.js` and
`website/scripts/generate-define-index.js`).

The JavaScript functions are shallowly embedded as executable Lean
definitions over `List Char` / `String` / association lists (JavaScript
objects are modelled as insertion-ordered association lists with
overwrite-on-assign semantics).  Regular-expression matches are embedded
as deterministic character-level parsers that realise the same language
and capture semantics as the concrete patterns in the scripts.
-/

/-! ## Generic character / string helpers -/

/-- Boolean test whether the second character list starts with the first. -/
def startsWithL : List Char → List Char → Bool
  | [], _ => true
  | _ :: _, [] => false
  | p :: ps, c :: cs => p == c && startsWithL ps cs

/-- Boolean test whether `cs` contains `pat` as a contiguous sublist. -/
def containsSub (pat : List Char) : List Char → Bool
  | [] => pat.isEmpty
  | c :: cs => startsWithL pat (c :: cs) || containsSub pat cs

/-- Expect the literal `p` at the head of the input, returning the rest. -/
def litChars : List Char → List Char → Option (List Char)
  | [], cs => some cs
  | _ :: _, [] => none
  | p :: ps, c :: cs => if p == c then litChars ps cs else none

/-- Skip any (possibly empty) run of whitespace, as a regex `\s*` does. -/
def wsSkip (cs : List Char) : List Char := cs.dropWhile Char.isWhitespace

/-- Require at least one whitespace character and skip the whole run,
as a greedy regex `\s+` does. -/
def wsReq : List Char → Option (List Char)
  | [] => none
  | c :: cs => if c.isWhitespace then some (wsSkip cs) else none

/-- Require the single character `ch` at the head of the input. -/
def charReq (ch : Char) : List Char → Option (List Char)
  | [] => none
  | c :: cs => if c == ch then some cs else none

/-- Require a nonempty maximal run of characters satisfying `p`
(a greedy regex character-class `+`), returning the run and the rest. -/
def runReq (p : Char → Bool) : List Char → Option (List Char × List Char)
  | [] => none
  | c :: cs =>
    if p c then some (c :: cs.takeWhile p, cs.dropWhile p) else none

/-- JavaScript word character `\w`: ASCII letters, digits and underscore. -/
def isWordChar (c : Char) : Bool := c.isAlphanum || c == '_'

/-- Character class `[a-z0-9_]`. -/
def isLowerWordChar (c : Char) : Bool := c.isLower || c.isDigit || c == '_'

/-- Character class `[A-Z_]`. -/
def isUpperUnd (c : Char) : Bool := c.isUpper || c == '_'

/-- JavaScript `String.prototype.trim`: drop whitespace at both ends. -/
def trimChars (cs : List Char) : List Char :=
  ((cs.dropWhile Char.isWhitespace).reverse.dropWhile Char.isWhitespace).reverse

/-! ## JavaScript object model

A JavaScript object is modelled as an insertion-ordered association list
with string keys.  `obj[k] = v` updates an existing key in place and
otherwise appends the new key at the end, exactly as property assignment
behaves with respect to `Object.entries` enumeration order. -/

/-- Property assignment `m[k] = v` on a JavaScript object. -/
def objInsert {α : Type} : List (String × α) → String → α → List (String × α)
  | [], k, v => [(k, v)]
  | (k', v') :: rest, k, v =>
    if k' == k then (k', v) :: rest else (k', v') :: objInsert rest k v

/-- `Object.assign(m, ps)`: copy every entry of `ps`, in order, onto `m`. -/
def objAssign {α : Type} (m : List (String × α)) (ps : List (String × α)) :
    List (String × α) :=
  ps.foldl (fun acc p => objInsert acc p.1 p.2) m

/-- Code-unit comparison of strings as JavaScript's default array sort
comparator orders them (lexicographic by character code). -/
def strLeB : List Char → List Char → Bool
  | [], _ => true
  | _ :: _, [] => false
  | a :: as, b :: bs => if a == b then strLeB as bs else decide (a.toNat < b.toNat)

/-- Insert a string into an already sorted list of strings. -/
def insertSorted (s : String) : List String → List String
  | [] => [s]
  | x :: xs => if strLeB s.data x.data then s :: x :: xs else x :: insertSorted s xs

/-- The sorted rearrangement produced by JavaScript `names.sort()`. -/
def sortStrings (l : List String) : List String := l.foldr insertSorted []

/-! ## `findFunctionEnd` (generate-function-index.js, lines 185-207)

The source scans forward from `startLine`, counts `\x7b` / `\x7d` per
character, and returns the 1-indexed line at which the counter reaches
zero after an opening brace has been seen; otherwise it falls back to
`min (startLine + 50) lines.length`. -/

/-- Per-line brace scan: `none` signals the early `return i + 1` inside the
character loop, otherwise the updated `(braceCount, foundOpenBrace)`. -/
def scanBraceChars : List Char → Int → Bool → Option (Int × Bool)
  | [], c, f => some (c, f)
  | ch :: rest, c, f =>
    if ch == '\x7b' then scanBraceChars rest (c + 1) true
    else if ch == '\x7d' then
      if f && decide (c - 1 = 0) then none
      else scanBraceChars rest (c - 1) f
    else scanBraceChars rest c f

/-- Line loop of `findFunctionEnd`; `i` is the 0-based index of the first
line of the remaining list. -/
def findFnEndAux : List String → Nat → Int → Bool → Option Nat
  | [], _, _, _ => none
  | l :: rest, i, c, f =>
    match scanBraceChars l.data c f with
    | none => some (i + 1)
    | some (c', f') => findFnEndAux rest (i + 1) c' f'

/-- `findFunctionEnd(lines, startLine)` of generate-function-index.js. -/
def findFunctionEnd (lines : List String) (startLine : Nat) : Nat :=
  match findFnEndAux (lines.drop startLine) startLine 0 false with
  | some e => e
  | none => min (startLine + 50) lines.length

/-! ## Canonical SSL alias resolution
(generate-function-index.js, lines 104-114, 385-407, 707-727) -/

/-- The hand-maintained override table `SSL_COMMENT_OVERRIDES`
(generate-function-index.js, lines 106-114). -/
def SSL_COMMENT_OVERRIDES : List (String × String) :=
  [("op_sfall_func7", "sfall_func7"),
   ("op_sfall_func8", "sfall_func8"),
   ("opSuccess", "is_success"),
   ("opCritical", "is_critical"),
   ("op_type_of", "typeof"),
   ("opWorldmap", "world_map"),
   ("_op_gdialog_barter", "gdialog_mod_barter")]

/-- Property read `SSL_COMMENT_OVERRIDES[funcName]`. -/
def sslOverride (f : String) : Option String := List.lookup f SSL_COMMENT_OVERRIDES

/-- One global-replace step of `replace(/([a-z])([A-Z])/g, "$1_$2")`:
after a match both of its characters are consumed and scanning resumes
after them. -/
def camelStep : List Char → List Char
  | [] => []
  | [a] => [a]
  | a :: b :: rest =>
    if a.isLower && b.isUpper then a :: '_' :: b :: camelStep rest
    else a :: camelStep (b :: rest)

/-- `opcodeToSSLName` (generate-function-index.js, lines 385-407). -/
def opcodeToSSLName (opcodeName : String) : String :=
  if startsWithL "_op_".data opcodeName.data then String.mk (opcodeName.data.drop 4)
  else if startsWithL "op_".data opcodeName.data then String.mk (opcodeName.data.drop 3)
  else if startsWithL "mf_".data opcodeName.data then String.mk (opcodeName.data.drop 3)
  else
    let name := if startsWithL "op".data opcodeName.data then opcodeName.data.drop 2
                else opcodeName.data
    String.mk ((camelStep name).map Char.toLower)

/-- JavaScript `a || b` on a possibly-undefined string `a`
(`undefined` and the empty string are falsy). -/
def jsOrS (a : Option String) (b : String) : String :=
  match a with
  | some v => if v = "" then b else v
  | none => b

/-- The alias resolution of main (generate-function-index.js, line 718):
`SSL_COMMENT_OVERRIDES[funcName] || allSslNames[funcName] || opcodeToSSLName(funcName)`.
`annots` is the lookup into the accumulated `allSslNames` object. -/
def resolveSSLName (annots : String → Option String) (f : String) : String :=
  jsOrS (sslOverride f) (jsOrS (annots f) (opcodeToSSLName f))

/-! ## Index entries and the per-function assembly step
(generate-function-index.js, lines 707-727) -/

/-- Location-and-kind data of a raw symbol as produced by the extractors. -/
structure RawInfo where
  file : String
  startLine : Nat
  endLine : Nat
  kind : String
deriving DecidableEq

/-- One value of the persisted `index.functions` object. -/
structure FnEntry where
  file : String
  startLine : Nat
  endLine : Nat
  kind : String
  commit : String
  cppName : Option String
deriving DecidableEq

/-- ASCII lowercasing of `String.prototype.toLowerCase`. -/
def strToLower (s : String) : String := String.mk (s.data.map Char.toLower)

/-- Entries that main adds to `index.functions` for one raw function
(generate-function-index.js, lines 708-727): the entry keyed by the
native name, plus — for recognized opcode prefixes — the alias entry,
guarded by `sslName && sslName !== funcName.toLowerCase()`. -/
def fnIndexEntries (annots : String → Option String) (funcName : String)
    (info : RawInfo) (shortCommit : String) : List (String × FnEntry) :=
  let base : String × FnEntry :=
    (funcName, ⟨info.file, info.startLine, info.endLine, info.kind, shortCommit, none⟩)
  if startsWithL "op".data funcName.data || startsWithL "_op".data funcName.data
      || startsWithL "mf_".data funcName.data then
    let sslName := resolveSSLName annots funcName
    if sslName ≠ "" ∧ sslName ≠ strToLower funcName then
      [base, (sslName, ⟨info.file, info.startLine, info.endLine, info.kind,
                        shortCommit, some funcName⟩)]
    else [base]
  else [base]

/-! ## Duplicate detection (generate-function-index.js, lines 479-506) -/

/-- The grouping key `` `${info.file}:${info.startLine}:${info.endLine}` ``. -/
def locationKey (e : FnEntry) : String :=
  e.file ++ ":" ++ toString e.startLine ++ ":" ++ toString e.endLine

/-- `locationToNames[key].push(name)`, creating the group when absent. -/
def addToGroup : List (String × List String) → String → String →
    List (String × List String)
  | [], k, n => [(k, [n])]
  | (k', ns) :: rest, k, n =>
    if k' == k then (k', ns ++ [n]) :: rest else (k', ns) :: addToGroup rest k n

/-- One step of the `locationToNames` accumulation loop of
`detectDuplicates`: entries without a `cppName` back-reference are
skipped. -/
def groupStep (g : List (String × List String)) (p : String × FnEntry) :
    List (String × List String) :=
  match p.2.cppName with
  | some _ => addToGroup g (locationKey p.2) p.1
  | none => g

/-- The `locationToNames` object of `detectDuplicates`. -/
def buildGroups (fns : List (String × FnEntry)) : List (String × List String) :=
  fns.foldl groupStep []

/-- `detectDuplicates` (generate-function-index.js, lines 479-506):
the groups holding more than one alias name, each with its names sorted. -/
def detectDuplicates (fns : List (String × FnEntry)) : List (String × List String) :=
  ((buildGroups fns).filter (fun g => 1 < g.2.length)).map
    (fun g => (g.1, sortStrings g.2))

/-! ## Index comparison and the update gate
(generate-function-index.js, lines 429-473 and 620-802;
generate-define-index.js, lines 224-267 and 319-437) -/

/-- The function index artifact: `_meta?.shortCommit` (`none` models an
absent meta object or field) together with the `functions` object. -/
structure FnIndex where
  shortCommit : Option String
  functions : List (String × FnEntry)
deriving DecidableEq

/-- The result object of `compareIndices` in generate-function-index.js. -/
structure FnChanges where
  added : List String
  removed : List String
  modified : List (String × FnEntry × FnEntry)
  commitChanged : Bool
deriving DecidableEq

/-- Whether an entry of the new index differs from the old one in the
fields `compareIndices` inspects (`file`, `startLine`, `endLine`). -/
def fnEntryDiffers (o n : FnEntry) : Bool :=
  o.file ≠ n.file || o.startLine ≠ n.startLine || o.endLine ≠ n.endLine

/-- `compareIndices` (generate-function-index.js, lines 429-473). -/
def compareFnIndices (oldIdx newIdx : FnIndex) : FnChanges :=
  { added := ((newIdx.functions.filter
      (fun p => (List.lookup p.1 oldIdx.functions).isNone)).map Prod.fst)
    removed := ((oldIdx.functions.filter
      (fun p => (List.lookup p.1 newIdx.functions).isNone)).map Prod.fst)
    modified := newIdx.functions.filterMap (fun p =>
      match List.lookup p.1 oldIdx.functions with
      | none => none
      | some o => if fnEntryDiffers o p.2 then some (p.1, o, p.2) else none)
    commitChanged := oldIdx.shortCommit ≠ newIdx.shortCommit }

/-- The `hasChanges` test of main (generate-function-index.js, lines 764-767). -/
def fnHasChanges (ch : FnChanges) : Bool :=
  ch.added ≠ [] || ch.removed ≠ [] || ch.modified ≠ [] || ch.commitChanged

/-- Terminal outcome of one generation run, as observable from outside:
which branch of main ended the run.  `duplicateError` is the
`process.exit(1)` taken when duplicates are detected. -/
inductive GateOutcome where
  | duplicateError
  | upToDate
  | dryRunPreview
  | written
  | aborted
deriving DecidableEq

/-- The tail of `main` in generate-function-index.js (lines 737-801), from
the duplicate check to the write decision.  The returned option is the
artifact written to disk (`none` when nothing is written).  `confirmAnswer`
is the abstract yes/no obtained from the interactive prompt. -/
def runFnGate (newIdx existing : FnIndex)
    (dryRun autoConfirm confirmAnswer : Bool) : GateOutcome × Option FnIndex :=
  if detectDuplicates newIdx.functions = [] then
    let ch := compareFnIndices existing newIdx
    if ¬ fnHasChanges ch then (.upToDate, none)
    else if dryRun then (.dryRunPreview, none)
    else if autoConfirm then (.written, some newIdx)
    else if confirmAnswer then (.written, some newIdx)
    else (.aborted, none)
  else (.duplicateError, none)

/-! ## The define index (generate-define-index.js) -/

/-- One value of the persisted `defines` object. -/
structure DefEntry where
  line : Nat
  value : String
  pfx : String
deriving DecidableEq

/-- The define index artifact. -/
structure DefIndex where
  shortCommit : Option String
  defines : List (String × DefEntry)
deriving DecidableEq

/-- The result object of `compareIndices` in generate-define-index.js. -/
structure DefChanges where
  added : List String
  removed : List String
  modified : List (String × DefEntry × DefEntry)
  commitChanged : Bool
deriving DecidableEq

/-- Field comparison of `compareIndices` in generate-define-index.js
(lines 247-250): `line` and `value`. -/
def defEntryDiffers (o n : DefEntry) : Bool :=
  o.line ≠ n.line || o.value ≠ n.value

/-- `compareIndices` (generate-define-index.js, lines 224-267). -/
def compareDefIndices (oldIdx newIdx : DefIndex) : DefChanges :=
  { added := ((newIdx.defines.filter
      (fun p => (List.lookup p.1 oldIdx.defines).isNone)).map Prod.fst)
    removed := ((oldIdx.defines.filter
      (fun p => (List.lookup p.1 newIdx.defines).isNone)).map Prod.fst)
    modified := newIdx.defines.filterMap (fun p =>
      match List.lookup p.1 oldIdx.defines with
      | none => none
      | some o => if defEntryDiffers o p.2 then some (p.1, o, p.2) else none)
    commitChanged := oldIdx.shortCommit ≠ newIdx.shortCommit }

/-- The `hasChanges` test of main (generate-define-index.js, lines 403-406). -/
def defHasChanges (ch : DefChanges) : Bool :=
  ch.added ≠ [] || ch.removed ≠ [] || ch.modified ≠ [] || ch.commitChanged

/-- The tail of `main` in generate-define-index.js (lines 401-436):
compare, short-circuit on no changes, stop before the prompt under
`--dry-run`, otherwise confirm and write. -/
def runDefGate (newIdx existing : DefIndex)
    (dryRun autoConfirm confirmAnswer : Bool) : GateOutcome × Option DefIndex :=
  let ch := compareDefIndices existing newIdx
  if ¬ defHasChanges ch then (.upToDate, none)
  else if dryRun then (.dryRunPreview, none)
  else if autoConfirm then (.written, some newIdx)
  else if confirmAnswer then (.written, some newIdx)
  else (.aborted, none)

/-! ## Define extraction (generate-define-index.js, lines 29-66, 144-202) -/

/-- The categorisation table `KNOWN_PREFIXES` of generate-define-index.js
(lines 30-61). -/
def KNOWN_PFXS : List String :=
  ["PERK_", "TRAIT_", "STAT_", "SKILL_", "DAM_", "DMG_", "METARULE_",
   "item_type_", "INVEN_", "CRITTER_", "ONE_GAME_", "FLOAT_MSG_",
   "OBJ_TYPE_", "PID_", "PROTO_", "ANIM_", "SCRIPT_", "TILE_", "TEAM_",
   "REPUTATION_", "GVAR_", "LVAR_", "MVAR_", "MSG_", "AI_", "FID_",
   "GAME_", "TOWN_", "MAP_", "AREA_"]

/-- The `replace(/_$/, "")` applied to a matched table entry: strip one
trailing underscore when present. -/
def stripTrailUnd (s : String) : String :=
  match s.data.reverse with
  | '_' :: rest => String.mk rest.reverse
  | _ => s

/-- `getPrefix` of generate-define-index.js (lines 147-154): first table
entry the name starts with, with its trailing underscore removed,
otherwise `"OTHER"`. -/
def getPfx (name : String) : String :=
  match KNOWN_PFXS.find? (fun p => startsWithL p.data name.data) with
  | some p => stripTrailUnd p
  | none => "OTHER"

/-- Whether the rest of the line after a candidate value split matches the
optional tail `(?:\s*\/\/.*)?$` of `DEFINE_PATTERN` without being empty:
whitespace and then a line comment.  (The empty rest is handled by the
caller: `$` also terminates the lazy group.) -/
def restIsComment (cs : List Char) : Bool :=
  startsWithL ['/', '/'] (wsSkip cs)

/-- The lazy capture `(.+?)` of `DEFINE_PATTERN` before the optional
trailing comment: the shortest nonempty head of the input such that the
remainder is `\s*\/\/.*` or empty. -/
def lazyValue : List Char → List Char
  | [] => []
  | c :: rest => c :: (if restIsComment rest then [] else lazyValue rest)

/-- The head of the input that comes before its first occurrence of `//`
(the whole input when there is none), as `value.indexOf('//')` followed by
`value.substring(0, idx)` computes it. -/
def cutAtSlashes : List Char → List Char
  | [] => []
  | c :: rest =>
    if startsWithL ['/', '/'] (c :: rest) then []
    else c :: cutAtSlashes rest

/-- Deterministic embedding of `DEFINE_PATTERN`
(`^#define\s+([A-Za-z_][A-Za-z0-9_]*)\s+(.+?)(?:\s*\/\/.*)?$`,
generate-define-index.js line 66) applied to a trimmed line: the captured
name and raw value.  The name run is maximal, so the mandatory `\s+`
after it fails exactly when a non-word character such as `(` follows the
name directly. -/
def defMatch (t : List Char) : Option (List Char × List Char) :=
  match litChars "#define".data t with
  | none => none
  | some r1 =>
    match wsReq r1 with
    | none => none
    | some r2 =>
      match r2 with
      | [] => none
      | c :: cs =>
        if c.isAlpha || c == '_' then
          let name := c :: cs.takeWhile isWordChar
          match wsReq (cs.dropWhile isWordChar) with
          | none => none
          | some r3 =>
            match r3 with
            | [] => none
            | _ => some (name, lazyValue r3)
        else none

/-- Processing of one line of `parseDefines`
(generate-define-index.js, lines 163-199); `lineNum` is 1-indexed. -/
def defineEntryOfLine (lineNum : Nat) (line : String) : Option (String × DefEntry) :=
  let t := trimChars line.data
  if startsWithL "#define".data t then
    match defMatch t with
    | none => none
    | some (name, rawValue) =>
      let value := trimChars (cutAtSlashes (trimChars rawValue))
      if containsSub ['('] name then none
      else if startsWithL ['_'] name then none
      else some (String.mk name, ⟨lineNum, String.mk value, getPfx (String.mk name)⟩)
  else none

/-- Index-carrying loop of `parseDefines`; `i` is the 0-based index of the
first remaining line. -/
def parseDefinesAux : List String → Nat → List (String × DefEntry) →
    List (String × DefEntry)
  | [], _, acc => acc
  | l :: rest, i, acc =>
    match defineEntryOfLine (i + 1) l with
    | some (n, e) => parseDefinesAux rest (i + 1) (objInsert acc n e)
    | none => parseDefinesAux rest (i + 1) acc

/-- `parseDefines` (generate-define-index.js, lines 159-202). -/
def parseDefines (lines : List String) : List (String × DefEntry) :=
  parseDefinesAux lines 0 []

/-! ## Metarule case extraction
(generate-function-index.js, lines 74-102, 305-376) -/

/-- The fixed table `METARULE_SSL_NAMES`
(generate-function-index.js, lines 74-99). -/
def METARULE_SSL_NAMES : List (String × String) :=
  [("METARULE_SIGNAL_END_GAME", "signal_end_game"),
   ("METARULE_FIRST_RUN", "map_first_run"),
   ("METARULE_ELEVATOR", "elevator"),
   ("METARULE_PARTY_COUNT", "party_member_count"),
   ("METARULE_AREA_KNOWN", "town_known"),
   ("METARULE_WHO_ON_DRUGS", "drug_influence"),
   ("METARULE_MAP_KNOWN", "map_is_known"),
   ("METARULE_IS_LOADGAME", "is_loading_game"),
   ("METARULE_CAR_CURRENT_TOWN", "car_current_town"),
   ("METARULE_GIVE_CAR_TO_PARTY", "car_give_to_party"),
   ("METARULE_GIVE_CAR_GAS", "car_give_gas"),
   ("METARULE_SKILL_CHECK_TAG", "is_skill_tagged"),
   ("METARULE_DROP_ALL_INVEN", "obj_drop_everything"),
   ("METARULE_INVEN_UNWIELD_WHO", "inven_unwield"),
   ("METARULE_GET_WORLDMAP_XPOS", "world_map_x_pos"),
   ("METARULE_GET_WORLDMAP_YPOS", "world_map_y_pos"),
   ("METARULE_CURRENT_TOWN", "cur_town"),
   ("METARULE_LANGUAGE_FILTER", "language_filter_is_on"),
   ("METARULE_VIOLENCE_FILTER", "violence_level_setting"),
   ("METARULE_WEAPON_DAMAGE_TYPE", "weapon_damage_type"),
   ("METARULE_CRITTER_BARTERS", "critter_barters"),
   ("METARULE_CRITTER_KILL_TYPE", "critter_kill_type"),
   ("METARULE_SET_CAR_CARRY_AMOUNT", "set_car_carry_amount"),
   ("METARULE_GET_CAR_CARRY_AMOUNT", "get_car_carry_amount")]

/-- Embedding of `METARULE_CASE_PATTERN`
(`^\s*case\s+(METARULE_[A-Z_]+)\s*:`, generate-function-index.js
line 102): the captured dispatch-key constant. -/
def matchCaseMetarule (line : String) : Option String :=
  match litChars "case".data (wsSkip line.data) with
  | none => none
  | some r1 =>
    match wsReq r1 with
    | none => none
    | some r2 =>
      match litChars "METARULE_".data r2 with
      | none => none
      | some r3 =>
        match runReq isUpperUnd r3 with
        | none => none
        | some (run, r4) =>
          match charReq ':' (wsSkip r4) with
          | none => none
          | some _ => some (String.mk ("METARULE_".data ++ run))

/-- Test for `^\s*case\s+` (generate-function-index.js line 344). -/
def isCaseLine (line : String) : Bool :=
  match litChars "case".data (wsSkip line.data) with
  | none => false
  | some r1 => (wsReq r1).isSome

/-- Test for `^\s*default\s*:` (generate-function-index.js line 345). -/
def isDefaultLine (line : String) : Bool :=
  match litChars "default".data (wsSkip line.data) with
  | none => false
  | some r1 => (charReq ':' (wsSkip r1)).isSome

/-- Test for `^\s*break\s*;` (generate-function-index.js line 346). -/
def isBreakLine (line : String) : Bool :=
  match litChars "break".data (wsSkip line.data) with
  | none => false
  | some r1 => (charReq ';' (wsSkip r1)).isSome

/-- Test for `^\s*}\s*$` (generate-function-index.js line 351). -/
def isCloseOnly (line : String) : Bool :=
  match charReq '\x7d' (wsSkip line.data) with
  | none => false
  | some r1 => (wsSkip r1).isEmpty

/-- Net brace count of one line, as the per-character loop of
`parseMetaruleCases` accumulates it. -/
def braceDelta (line : String) : Int :=
  line.data.foldl (fun c ch =>
    if ch == '\x7b' then c + 1 else if ch == '\x7d' then c - 1 else c) 0

/-- Whether `line.includes(sub)` holds. -/
def lineContains (line sub : String) : Bool := containsSub sub.data line.data

/-- The inner scan of `parseMetaruleCases` (lines 341-355) that finds the
end of a case branch: `j` is the 0-based index of the first remaining
line, `dflt` the 1-indexed `lineNum` of the `case` line itself. -/
def findCaseEndAux : List String → Nat → Nat → Nat
  | [], _, dflt => dflt
  | l :: rest, j, dflt =>
    if isCaseLine l || isDefaultLine l || isBreakLine l then j + 1
    else if isCloseOnly l then j
    else findCaseEndAux rest (j + 1) dflt

/-- One index entry produced by `parseMetaruleCases`. -/
structure MetaEntry where
  file : String
  startLine : Nat
  endLine : Nat
  kind : String
  cppName : String
  metarule : String
deriving DecidableEq

/-- Line loop of `parseMetaruleCases` (generate-function-index.js,
lines 315-373); `i` is the 0-based index of the current head line,
`inM` and `bc` the `inMetarule` / `braceCount` state. -/
def parseMetaruleAux (relPath : String) :
    List String → Nat → Bool → Int → List (String × MetaEntry) →
    List (String × MetaEntry)
  | [], _, _, _, acc => acc
  | l :: rest, i, inM, bc, acc =>
    let isHeader := lineContains l "void opMetarule(Program* program)"
      || lineContains l "static void opMetarule(Program* program)"
    let inM1 := if isHeader then true else inM
    let bc0 := if isHeader then 0 else bc
    if inM1 then
      let bc1 := bc0 + braceDelta l
      let acc1 :=
        match matchCaseMetarule l with
        | some mk =>
          match List.lookup mk METARULE_SSL_NAMES with
          | some ssl =>
            objInsert acc ssl
              ⟨relPath, i + 1, findCaseEndAux rest (i + 1) (i + 1),
               "metarule", "opMetarule", mk⟩
          | none => acc
        | none => acc
      let inM2 := if bc1 = 0 && lineContains l "\x7d" then false else inM1
      parseMetaruleAux relPath rest (i + 1) inM2 bc1 acc1
    else
      parseMetaruleAux relPath rest (i + 1) inM1 bc0 acc

/-- `parseMetaruleCases` (generate-function-index.js, lines 305-376),
taking the snapshot-relative path and the file's lines. -/
def parseMetaruleCases (relPath : String) (lines : List String) :
    List (String × MetaEntry) :=
  parseMetaruleAux relPath lines 0 false 0 []

/-! ## Opcode definition recognition and SSL-name discovery
(generate-function-index.js, lines 31-58, 213-299, 668-688) -/

/-- Shared argument-list head of the opcode definition patterns:
`\s*\(\s*(?:fallout::)?Program\s*\*\s*\w+`, then trailing whitespace. -/
def parseProgArgHead (cs : List Char) : Option (List Char) :=
  match charReq '(' (wsSkip cs) with
  | none => none
  | some r1 =>
    let r2 :=
      match litChars "fallout::".data (wsSkip r1) with
      | some r => r
      | none => wsSkip r1
    match litChars "Program".data r2 with
    | none => none
    | some r3 =>
      match charReq '*' (wsSkip r3) with
      | none => none
      | some r4 =>
        match runReq isWordChar (wsSkip r4) with
        | none => none
        | some (_, r5) => some (wsSkip r5)

/-- The definition-name shapes of `OPCODE_PATTERNS`:
`op[A-Z][a-zA-Z0-9_]*`, `op_[a-z][a-z0-9_]*`, `_op_[a-z][a-z0-9_]*`,
and (with its own argument shape) `mf_[a-z][a-z0-9_]*`.
Returns the captured name, whether it is the `mf_` family, and the rest. -/
def parseOpcodeName (cs : List Char) : Option (List Char × Bool × List Char) :=
  match litChars "_op_".data cs with
  | some r =>
    match runReq isLowerWordChar r with
    | some (run, rest) =>
      if (match run with | c :: _ => c.isLower | [] => false) then
        some ("_op_".data ++ run, false, rest)
      else none
    | none => none
  | none =>
    match litChars "mf_".data cs with
    | some r =>
      match runReq isLowerWordChar r with
      | some (run, rest) =>
        if (match run with | c :: _ => c.isLower | [] => false) then
          some ("mf_".data ++ run, true, rest)
        else none
      | none => none
    | none =>
      match litChars "op_".data cs with
      | some r =>
        match runReq isLowerWordChar r with
        | some (run, rest) =>
          if (match run with | c :: _ => c.isLower | [] => false) then
            some ("op_".data ++ run, false, rest)
          else none
        | none => none
      | none =>
        match litChars "op".data cs with
        | none => none
        | some r =>
          match r with
          | [] => none
          | c :: cs2 =>
            if c.isUpper then
              some ('o' :: 'p' :: c :: cs2.takeWhile isWordChar, false,
                    cs2.dropWhile isWordChar)
            else none

/-- Embedding of the eight `OPCODE_PATTERNS`
(generate-function-index.js, lines 31-48): the captured function name of
the first pattern matching the line, if any. -/
def matchOpcodeDef (line : String) : Option String :=
  let afterRet :=
    match litChars "void".data line.data with
    | some r => wsReq r
    | none =>
      match litChars "static".data line.data with
      | some r =>
        match wsReq r with
        | some r2 =>
          match litChars "void".data r2 with
          | some r3 => wsReq r3
          | none => none
        | none => none
      | none => none
  match afterRet with
  | none => none
  | some r =>
    match parseOpcodeName r with
    | none => none
    | some (name, isMf, rest) =>
      match parseProgArgHead rest with
      | none => none
      | some r5 =>
        if isMf then
          match charReq ',' r5 with
          | none => none
          | some r6 =>
            match litChars "int".data (wsSkip r6) with
            | none => none
            | some r7 =>
              match wsReq r7 with
              | none => none
              | some r8 =>
                match runReq isWordChar r8 with
                | none => none
                | some (_, r9) =>
                  if (charReq ')' (wsSkip r9)).isSome then some (String.mk name)
                  else none
        else
          if (charReq ')' r5).isSome then some (String.mk name) else none

/-- Embedding of `SSL_COMMENT_PATTERN` (`^\/\/\s*([a-z][a-z0-9_]*)`,
generate-function-index.js line 58) applied to a trimmed line. -/
def matchSslComment (t : String) : Option String :=
  match litChars "//".data t.data with
  | none => none
  | some r1 =>
    match wsSkip r1 with
    | [] => none
    | c :: cs =>
      if c.isLower then some (String.mk (c :: cs.takeWhile isLowerWordChar))
      else none

/-- The look-back loop over up to three preceding lines
(generate-function-index.js, lines 238-249): the first line matching the
SSL comment shape wins; a nonempty non-comment line stops the search. -/
def scanPrevLines : List String → Option String
  | [] => none
  | p :: rest =>
    let t := String.mk (trimChars p.data)
    match matchSslComment t with
    | some name => some name
    | none =>
      if ¬ startsWithL "//".data t.data && t ≠ "" then none
      else scanPrevLines rest

/-- The up-to-three preceding lines of line `i`, nearest first. -/
def prevLines (lines : List String) (i : Nat) : List String :=
  (List.range 3).filterMap (fun d =>
    if d + 1 ≤ i then lines.get? (i - (d + 1)) else none)

/-- The `sslNamesFromComments` object built by `parseSourceFile`
(generate-function-index.js, lines 213-271) for one file. -/
def parseSourceFileComments (lines : List String) : List (String × String) :=
  (List.range lines.length).foldl (fun m i =>
    match lines.get? i with
    | none => m
    | some line =>
      match matchOpcodeDef line with
      | none => m
      | some fn =>
        match scanPrevLines (prevLines lines i) with
        | some ssl => objInsert m fn ssl
        | none => m) []

/-- The function-name capture `_?op[A-Z_][a-zA-Z0-9_]*` of
`OPCODE_REGISTER_PATTERN`. -/
def parseRegFuncName (cs : List Char) : Option (List Char × List Char) :=
  let core : List Char → Option (List Char × List Char) := fun r =>
    match litChars "op".data r with
    | none => none
    | some r1 =>
      match r1 with
      | [] => none
      | c :: cs2 =>
        if isUpperUnd c then
          some ('o' :: 'p' :: c :: cs2.takeWhile isWordChar,
                cs2.dropWhile isWordChar)
        else none
  match cs with
  | '_' :: rest =>
    (match core rest with
     | some (n, r) => some ('_' :: n, r)
     | none => core cs)
  | _ => core cs

/-- One match of `OPCODE_REGISTER_PATTERN`
(generate-function-index.js line 53) at the head of the input: returns
the opcode capture, the function-name capture, the optional SSL-comment
capture, and the rest of the input after the match.  The comment capture
only participates when `//` follows the closing parenthesis directly,
since the lazy `.*?` before the optional group matches the empty string. -/
def matchRegAt (cs : List Char) : Option (String × String × Option String × List Char) :=
  match litChars "interpreterRegisterOpcode".data cs with
  | none => none
  | some r1 =>
    match charReq '(' (wsSkip r1) with
    | none => none
    | some r2 =>
      match runReq isWordChar (wsSkip r2) with
      | none => none
      | some (opc, r3) =>
        match charReq ',' (wsSkip r3) with
        | none => none
        | some r4 =>
          match parseRegFuncName (wsSkip r4) with
          | none => none
          | some (fn, r5) =>
            match charReq ')' (wsSkip r5) with
            | none => none
            | some r6 =>
              match litChars "//".data r6 with
              | none => some (String.mk opc, String.mk fn, none, r6)
              | some r7 =>
                match litChars "op_".data (wsSkip r7) with
                | none => some (String.mk opc, String.mk fn, none, r6)
                | some r8 =>
                  match runReq isWordChar r8 with
                  | none => some (String.mk opc, String.mk fn, none, r6)
                  | some (run, r9) =>
                    some (String.mk opc, String.mk fn,
                          some (String.mk ("op_".data ++ run)), r9)

/-- Fuel-driven embedding of the `exec` loop over the file content
(generate-function-index.js, lines 283-296): on a match, record the
opcode-to-function mapping, record the comment-derived SSL name with its
`op_` marker stripped when the comment capture is present, and resume
after the match; otherwise advance one character.  The fuel is the input
length, which bounds the number of loop steps since every step consumes
at least one character. -/
def scanRegsF : Nat → List Char →
    List (String × String) × List (String × String) →
    List (String × String) × List (String × String)
  | 0, _, st => st
  | _ + 1, [], st => st
  | fuel + 1, c :: rest, (maps, ssl) =>
    match matchRegAt (c :: rest) with
    | some (opc, fn, comm, remainder) =>
      let maps1 := objInsert maps opc fn
      let ssl1 :=
        match comm with
        | some s =>
          objInsert ssl fn
            (if startsWithL "op_".data s.data then String.mk (s.data.drop 3) else s)
        | none => ssl
      scanRegsF fuel remainder (maps1, ssl1)
    | none => scanRegsF fuel rest (maps, ssl)

/-- The newline-joined content string of a file given as lines (the files
are read whole and split on `\n`, so joining restores the content). -/
def contentChars : List String → List Char
  | [] => []
  | [l] => l.data
  | l :: l2 :: rest => l.data ++ '\n' :: contentChars (l2 :: rest)

/-- `parseOpcodeRegistrations` (generate-function-index.js,
lines 278-299): the `mappings` and `sslNames` objects for one file. -/
def parseOpcodeRegistrations (lines : List String) :
    List (String × String) × List (String × String) :=
  scanRegsF (contentChars lines).length (contentChars lines) ([], [])

/-- The accumulation of `allSslNames` over all source files by the loop of
main (generate-function-index.js, lines 668-688): for each file, first
`Object.assign(allSslNames, sslNamesFromComments)`, then
`Object.assign(allSslNames, sslNames)` from the registrations. -/
def buildAllSslNames (files : List (List String)) : List (String × String) :=
  files.foldl (fun m lines =>
    objAssign (objAssign m (parseSourceFileComments lines))
      (parseOpcodeRegistrations lines).2) []

/-- The annotation stream of a scan: per file, the comment-derived
entries followed by the registration-derived entries, in merge order. -/
def annotStream (files : List (List String)) : List (String × String) :=
  files.flatMap (fun lines =>
    parseSourceFileComments lines ++ (parseOpcodeRegistrations lines).2)

/-- The value of the last entry of `ps` carrying key `k`, if any. -/
def lastBind (ps : List (String × String)) (k : String) : Option String :=
  ps.foldl (fun acc p => if p.1 = k then some p.2 else acc) none

/-! ## Theorems -/

/-- C2: for every raw definition-site symbol that has an entry in the
explicit override table — whatever comment- or registration-derived
annotation `annots` holds for it — the resolved canonical alias equals the
override table's value: the override has highest precedence. -/
theorem overrideAlwaysWins (f v : String) (annots : String → Option String)
    (h : sslOverride f = some v) : resolveSSLName annots f = v := by
  have hv : v ≠ "" := by
    simp only [sslOverride, SSL_COMMENT_OVERRIDES, List.lookup] at h
    repeat' split at h
    all_goals cases h
    all_goals decide
  unfold resolveSSLName
  rw [h]
  simp [jsOrS, hv]

/-- Witness for C2: `opSuccess` has the override `is_success`, and with a
comment-derived annotation `success` present the resolution still returns
`is_success`. -/
theorem overrideAlwaysWins_w :
    sslOverride "opSuccess" = some "is_success" ∧
    resolveSSLName (fun _ => some "success") "opSuccess" = "is_success" :=
  ⟨by decide, overrideAlwaysWins "opSuccess" "is_success" _ (by decide)⟩

/-- C6: for every native name that has no override entry and no comment-
or registration-derived annotation, the canonical alias is the
deterministic transformation `opcodeToSSLName` (strip the recognized
prefix, snake-case the remaining case transitions); in particular
`op_sqrt` yields `sqrt` and `opObjCanSeeObj` yields `obj_can_see_obj`. -/
theorem transformationFallback :
    (∀ (f : String) (annots : String → Option String),
      sslOverride f = none → annots f = none →
      resolveSSLName annots f = opcodeToSSLName f) ∧
    opcodeToSSLName "op_sqrt" = "sqrt" ∧
    opcodeToSSLName "opObjCanSeeObj" = "obj_can_see_obj" := by
  refine ⟨fun f annots h1 h2 => ?_, by decide, by decide⟩
  unfold resolveSSLName
  rw [h1, h2]
  rfl

/-- Witness for C6: `op_sqrt` has no override, and with no annotations the
resolution falls through to the transformation. -/
theorem transformationFallback_w :
    sslOverride "op_sqrt" = none ∧
    resolveSSLName (fun _ => none) "op_sqrt" = opcodeToSSLName "op_sqrt" :=
  ⟨by decide, transformationFallback.1 "op_sqrt" (fun _ => none) (by decide) rfl⟩

/-- C7: when the computed canonical alias equals the native name's own
lowercased form, only the native-name entry is emitted and no alias-keyed
entry is created; conversely any alias-keyed entry (one carrying a
`cppName` back-reference) differs from the lowercased native name. -/
theorem noRedundantSelfAlias (annots : String → Option String)
    (funcName : String) (info : RawInfo) (sc : String) :
    (resolveSSLName annots funcName = strToLower funcName →
      fnIndexEntries annots funcName info sc =
        [(funcName, ⟨info.file, info.startLine, info.endLine, info.kind, sc, none⟩)]) ∧
    (∀ p ∈ fnIndexEntries annots funcName info sc,
      p.2.cppName.isSome → p.1 ≠ strToLower funcName) := by
  constructor
  · intro h
    unfold fnIndexEntries
    split
    · rw [if_neg]
      intro hc
      exact hc.2 h
    · rfl
  · intro p hp hcpp
    simp only [fnIndexEntries] at hp
    split at hp
    · split at hp
      · rename_i hne
        simp only [List.mem_cons, List.not_mem_nil, or_false] at hp
        rcases hp with hp | hp
        · subst hp; simp at hcpp
        · subst hp; exact hne.2
      · simp only [List.mem_cons, List.not_mem_nil, or_false] at hp
        subst hp; simp at hcpp
    · simp only [List.mem_cons, List.not_mem_nil, or_false] at hp
      subst hp; simp at hcpp

/-- Witness for C7: with an annotation making the alias of `opFoo` equal
to its lowercased form `opfoo`, only the native entry is emitted; with no
annotation, the alias entry `foo` differs from `opfoo`. -/
theorem noRedundantSelfAlias_w :
    fnIndexEntries (fun _ => some "opfoo") "opFoo" ⟨"a.cc", 1, 3, "opcode"⟩ "c" =
      [("opFoo", ⟨"a.cc", 1, 3, "opcode", "c", none⟩)] ∧
    ("foo" : String) ≠ strToLower "opFoo" :=
  ⟨(noRedundantSelfAlias (fun _ => some "opfoo") "opFoo" ⟨"a.cc", 1, 3, "opcode"⟩ "c").1
      (by decide),
   (noRedundantSelfAlias (fun _ => none) "opFoo" ⟨"a.cc", 1, 3, "opcode"⟩ "c").2
      ("foo", ⟨"a.cc", 1, 3, "opcode", "c", some "opFoo"⟩) (by decide) (by decide)⟩

/-- A line consisting of a single opening brace advances the scan state. -/
theorem scanBrace_open (c : Int) (f : Bool) :
    scanBraceChars "\x7b".data c f = some (c + 1, true) := rfl

/-- Processing a run of single-open-brace lines adds the run length to
both the line index and the brace counter. -/
theorem findFnEndAux_openRun (m : Nat) :
    ∀ (tail : List String) (i : Nat) (c : Int),
      findFnEndAux (List.replicate m "\x7b" ++ tail) i c true =
      findFnEndAux tail (i + m) (c + m) true := by
  induction m with
  | zero => intro tail i c; simp
  | succ k ih =>
    intro tail i c
    rw [List.replicate_succ, List.cons_append]
    show findFnEndAux (List.replicate k "\x7b" ++ tail) (i + 1) (c + 1) true = _
    rw [ih]
    congr 1
    · omega
    · push_cast; ring

/-- Processing single-close-brace lines with a positive counter `c` that
the remaining run can exhaust returns line `i + c` (1-indexed, since `i`
is the 0-based index of the first close line). -/
theorem findFnEndAux_closeRun (n : Nat) :
    ∀ (tail : List String) (i : Nat) (c : Int), 0 < c → c ≤ n →
      findFnEndAux (List.replicate n "\x7d" ++ tail) i c true = some (i + c.toNat) := by
  induction n with
  | zero => intro tail i c hc hcn; omega
  | succ k ih =>
    intro tail i c hc hcn
    rw [List.replicate_succ, List.cons_append]
    by_cases h1 : c = 1
    · subst h1
      rfl
    · have hscan : scanBraceChars "\x7d".data c true = some (c - 1, true) := by
        show (if ('\x7d' == '\x7b') = true then _
          else if ('\x7d' == '\x7d') = true then
            if (true && decide (c - 1 = 0)) = true then none
            else scanBraceChars [] (c - 1) true
          else scanBraceChars [] c true) = some (c - 1, true)
        have hd : decide (c - 1 = 0) = false := by
          apply decide_eq_false; omega
        simp only [hd, Bool.and_false, if_false]
        rfl
      show (match scanBraceChars "\x7d".data c true with
        | none => some (i + 1)
        | some (c', f') => findFnEndAux (List.replicate k "\x7d" ++ tail) (i + 1) c' f') = _
      rw [hscan]
      show findFnEndAux (List.replicate k "\x7d" ++ tail) (i + 1) (c - 1) true = _
      rw [ih tail (i + 1) (c - 1) (by omega) (by push_cast at hcn ⊢; omega)]
      congr 1
      omega

/-- A brace-free line leaves the scan state unchanged. -/
theorem scanBrace_noClose (cs : List Char) (h : '\x7d' ∉ cs) :
    ∀ (c : Int) (f : Bool), ∃ c' f', scanBraceChars cs c f = some (c', f') := by
  induction cs with
  | nil => intro c f; exact ⟨c, f, rfl⟩
  | cons ch rest ih =>
    intro c f
    have hne : ch ≠ '\x7d' := fun he => h (he ▸ List.mem_cons_self ch rest)
    have hrest : '\x7d' ∉ rest := fun hm => h (List.mem_cons_of_mem ch hm)
    by_cases hb : ch = '\x7b'
    · subst hb
      obtain ⟨c', f', hs⟩ := ih hrest (c + 1) true
      exact ⟨c', f', by simpa [scanBraceChars] using hs⟩
    · obtain ⟨c', f', hs⟩ := ih hrest c f
      refine ⟨c', f', ?_⟩
      show (if (ch == '\x7b') = true then scanBraceChars rest (c + 1) true
        else if (ch == '\x7d') = true then _
        else scanBraceChars rest c f) = some (c', f')
      simp only [beq_iff_eq, hb, hne, if_false]
      exact hs

/-- The line loop never returns early when no line contains a closing
brace. -/
theorem findFnEndAux_noClose (lines : List String)
    (h : ∀ l ∈ lines, '\x7d' ∉ l.data) :
    ∀ (i : Nat) (c : Int) (f : Bool), findFnEndAux lines i c f = none := by
  induction lines with
  | nil => intro i c f; rfl
  | cons l rest ih =>
    intro i c f
    obtain ⟨c', f', hs⟩ := scanBrace_noClose l.data (h l (List.mem_cons_self l rest)) c f
    show (match scanBraceChars l.data c f with
      | none => some (i + 1)
      | some (c', f') => findFnEndAux rest (i + 1) c' f') = none
    rw [hs]
    exact ih (fun l' hl' => h l' (List.mem_cons_of_mem l hl')) (i + 1) c' f'

/-- C3: extent recovery counts braces per character and returns the line
at which the count first returns to zero after having gone positive: for
a synthetic definition of `N` single-open-brace lines followed by `N`
single-close-brace lines, it returns the (1-indexed) line of the `N`-th
closing brace, namely `2 * N`; and when no closing brace exists at all,
it returns the bounded fallback `min (startLine + 50) lines.length`. -/
theorem extentRecoveryBalanced (N : Nat) (hN : 0 < N) :
    findFunctionEnd (List.replicate N "\x7b" ++ List.replicate N "\x7d") 0 = 2 * N ∧
    (∀ (lines : List String) (start : Nat),
      (∀ l ∈ lines, '\x7d' ∉ l.data) →
      findFunctionEnd lines start = min (start + 50) lines.length) := by
  constructor
  · obtain ⟨M, rfl⟩ : ∃ M, N = M + 1 := ⟨N - 1, by omega⟩
    unfold findFunctionEnd
    rw [List.drop_zero, List.replicate_succ, List.cons_append]
    have h1 : findFnEndAux
        ("\x7b" :: (List.replicate M "\x7b" ++ List.replicate (M + 1) "\x7d")) 0 0 false =
        findFnEndAux (List.replicate M "\x7b" ++ List.replicate (M + 1) "\x7d") 1 1 true := rfl
    have h2 := findFnEndAux_closeRun (M + 1) [] (1 + M) (1 + (M : Int))
      (by omega) (by push_cast; omega)
    rw [List.append_nil] at h2
    rw [h1, findFnEndAux_openRun M (List.replicate (M + 1) "\x7d") 1 1, h2]
    show 1 + M + ((1 : Int) + M).toNat = 2 * (M + 1)
    omega
  · intro lines start h
    unfold findFunctionEnd
    rw [findFnEndAux_noClose (lines.drop start)
      (fun l hl => h l (List.mem_of_mem_drop hl)) start 0 false]

/-- Witness for C3: at `N = 3` the recovered end line is `6`, and on a
two-line brace-free file the fallback `min (0 + 50) 2 = 2` is returned. -/
theorem extentRecoveryBalanced_w :
    findFunctionEnd (List.replicate 3 "\x7b" ++ List.replicate 3 "\x7d") 0 = 2 * 3 ∧
    findFunctionEnd ["void f();", "int x;"] 0 = min (0 + 50) 2 :=
  ⟨(extentRecoveryBalanced 3 (by decide)).1,
   (extentRecoveryBalanced 3 (by decide)).2 ["void f();", "int x;"] 0 (by decide)⟩

/-- C8: with `--dry-run` set and a nonzero diff, both generation runs stop
at the dry-run branch and write nothing, whatever the confirmation inputs
would have been — the run returns before the confirmation prompt. -/
theorem dryRunNeverWrites (fnNew fnOld : FnIndex) (defNew defOld : DefIndex)
    (a c a' c' : Bool)
    (h1 : detectDuplicates fnNew.functions = [])
    (h2 : fnHasChanges (compareFnIndices fnOld fnNew) = true)
    (h3 : defHasChanges (compareDefIndices defOld defNew) = true) :
    runFnGate fnNew fnOld true a c = (.dryRunPreview, none) ∧
    runDefGate defNew defOld true a' c' = (.dryRunPreview, none) := by
  constructor
  · unfold runFnGate
    rw [if_pos h1]
    simp [h2]
  · unfold runDefGate
    simp [h3]

/-- Witness for C8: a one-entry new function index against an empty prior
index, and likewise for the define index, under `--dry-run`. -/
theorem dryRunNeverWrites_w :
    runFnGate ⟨some "c", [("opFoo", ⟨"a.cc", 1, 3, "opcode", "c", none⟩)]⟩
        ⟨some "c", []⟩ true true true = (.dryRunPreview, none) ∧
    runDefGate ⟨some "c", [("PERK_X", ⟨1, "5", "PERK"⟩)]⟩
        ⟨some "c", []⟩ true false true = (.dryRunPreview, none) :=
  dryRunNeverWrites ⟨some "c", [("opFoo", ⟨"a.cc", 1, 3, "opcode", "c", none⟩)]⟩
    ⟨some "c", []⟩ ⟨some "c", [("PERK_X", ⟨1, "5", "PERK"⟩)]⟩ ⟨some "c", []⟩
    true true false true (by decide) (by decide) (by decide)

/-- Lookup of a present key succeeds on an association list. -/
theorem lookup_isSome_of_mem {α : Type} (l : List (String × α)) (p : String × α)
    (hm : p ∈ l) : (List.lookup p.1 l).isSome := by
  induction l with
  | nil => simp at hm
  | cons q rest ih =>
    rcases List.mem_cons.mp hm with rfl | hm'
    · simp [List.lookup]
    · by_cases he : p.1 = q.1
      · simp [List.lookup, he]
      · have : (p.1 == q.1) = false := beq_eq_false_iff_ne.mpr he
        simpa [List.lookup, this] using ih hm'

/-- With nodup keys, lookup of a member pair returns its value. -/
theorem lookup_eq_of_mem_nodup {α : Type} (l : List (String × α))
    (hnd : (l.map Prod.fst).Nodup) (k : String) (v : α) (hm : (k, v) ∈ l) :
    List.lookup k l = some v := by
  induction l with
  | nil => simp at hm
  | cons q rest ih =>
    rcases List.mem_cons.mp hm with he | hm'
    · rw [← he]
      simp [List.lookup]
    · have hk : k ≠ q.1 := by
        intro hkq
        have h1 : q.1 ∉ rest.map Prod.fst := (List.nodup_cons.mp (by simpa using hnd)).1
        exact h1 (hkq ▸ List.mem_map.mpr ⟨(k, v), hm', rfl⟩)
      have : (k == q.1) = false := beq_eq_false_iff_ne.mpr hk
      simpa [List.lookup, this] using
        ih (List.nodup_cons.mp (by simpa using hnd)).2 hm'

/-- C9: when a second run computes the same functions map and the same
revision as the persisted artifact (and the artifact has nodup keys and
no duplicate conflicts), the diff is entirely empty — nothing added,
removed or modified, revision unchanged — and the run ends in the
"up to date" short-circuit before any confirmation, writing nothing. -/
theorem secondRunUpToDate (idx existing : FnIndex) (d a c : Bool)
    (hdup : detectDuplicates idx.functions = [])
    (hfn : idx.functions = existing.functions)
    (hsc : idx.shortCommit = existing.shortCommit)
    (hnd : (existing.functions.map Prod.fst).Nodup) :
    compareFnIndices existing idx = ⟨[], [], [], false⟩ ∧
    runFnGate idx existing d a c = (.upToDate, none) := by
  have hcmp : compareFnIndices existing idx = ⟨[], [], [], false⟩ := by
    unfold compareFnIndices
    congr 1
    · rw [List.map_eq_nil_iff, List.filter_eq_nil_iff]
      intro p hp
      obtain ⟨v, hv⟩ := Option.isSome_iff_exists.mp
        (lookup_isSome_of_mem existing.functions p (hfn ▸ hp))
      simp [hv]
    · rw [List.map_eq_nil_iff, List.filter_eq_nil_iff]
      intro p hp
      obtain ⟨v, hv⟩ := Option.isSome_iff_exists.mp
        (lookup_isSome_of_mem idx.functions p (hfn ▸ hp))
      simp [hv]
    · rw [List.filterMap_eq_nil_iff]
      intro p hp
      have hl : List.lookup p.1 existing.functions = some p.2 :=
        lookup_eq_of_mem_nodup existing.functions hnd p.1 p.2
          (by rw [← hfn]; exact (by simpa using hp))
      rw [hl]
      simp [fnEntryDiffers]
    · simp [hsc]
  refine ⟨hcmp, ?_⟩
  unfold runFnGate
  rw [if_pos hdup, hcmp]
  simp [fnHasChanges]

/-- Witness for C9: a concrete one-entry index diffed against itself. -/
theorem secondRunUpToDate_w :
    compareFnIndices ⟨some "c", [("opFoo", ⟨"a.cc", 1, 3, "opcode", "c", none⟩)]⟩
        ⟨some "c", [("opFoo", ⟨"a.cc", 1, 3, "opcode", "c", none⟩)]⟩ = ⟨[], [], [], false⟩ ∧
    runFnGate ⟨some "c", [("opFoo", ⟨"a.cc", 1, 3, "opcode", "c", none⟩)]⟩
        ⟨some "c", [("opFoo", ⟨"a.cc", 1, 3, "opcode", "c", none⟩)]⟩ false true true =
      (.upToDate, none) :=
  secondRunUpToDate ⟨some "c", [("opFoo", ⟨"a.cc", 1, 3, "opcode", "c", none⟩)]⟩
    ⟨some "c", [("opFoo", ⟨"a.cc", 1, 3, "opcode", "c", none⟩)]⟩ false true true
    (by decide) rfl rfl (by decide)

/-- Pushing a name onto its group makes the group's list grow by that
name at the end. -/
theorem lookup_addToGroup_eq (g : List (String × List String)) (k n : String) :
    List.lookup k (addToGroup g k n) = some ((List.lookup k g).getD [] ++ [n]) := by
  induction g with
  | nil => simp [addToGroup, List.lookup]
  | cons q rest ih =>
    obtain ⟨k', ns⟩ := q
    by_cases he : k' = k
    · subst he
      simp [addToGroup, List.lookup]
    · have h1 : (k' == k) = false := beq_eq_false_iff_ne.mpr he
      have h2 : (k == k') = false := beq_eq_false_iff_ne.mpr (Ne.symm he)
      simp [addToGroup, List.lookup, h1, h2, ih]

/-- Pushing a name onto one group leaves every other group unchanged. -/
theorem lookup_addToGroup_ne (g : List (String × List String)) (k k' n : String)
    (h : k' ≠ k) :
    List.lookup k' (addToGroup g k n) = List.lookup k' g := by
  induction g with
  | nil => simp [addToGroup, List.lookup, beq_eq_false_iff_ne.mpr h]
  | cons q rest ih =>
    obtain ⟨k2, ns⟩ := q
    by_cases he : k2 = k
    · subst he
      have h2 : (k' == k2) = false := beq_eq_false_iff_ne.mpr h
      simp [addToGroup, List.lookup, h2]
    · have h1 : (k2 == k) = false := beq_eq_false_iff_ne.mpr he
      by_cases he' : k' = k2
      · subst he'
        simp [addToGroup, List.lookup, h1]
      · have h2 : (k' == k2) = false := beq_eq_false_iff_ne.mpr he'
        simp [addToGroup, List.lookup, h1, h2, ih]

/-- Membership of a name in a location group is never lost by later
accumulation steps. -/
theorem mem_group_foldl (fns : List (String × FnEntry)) :
    ∀ (g : List (String × List String)) (k n : String),
      n ∈ (List.lookup k g).getD [] →
      n ∈ (List.lookup k (fns.foldl groupStep g)).getD [] := by
  induction fns with
  | nil => intro g k n h; exact h
  | cons p rest ih =>
    intro g k n h
    rw [List.foldl_cons]
    apply ih
    unfold groupStep
    cases hc : p.2.cppName with
    | none => exact h
    | some cv =>
      by_cases hk : locationKey p.2 = k
      · subst hk
        rw [lookup_addToGroup_eq]
        simp only [Option.getD_some]
        exact List.mem_append_left _ h
      · rw [lookup_addToGroup_ne _ _ _ _ (Ne.symm hk)]
        exact h

/-- Every alias-bearing entry lands in the group of its location key. -/
theorem mem_group_of_mem (fns : List (String × FnEntry)) :
    ∀ (g : List (String × List String)) (n : String) (e : FnEntry),
      (n, e) ∈ fns → e.cppName.isSome →
      n ∈ (List.lookup (locationKey e) (fns.foldl groupStep g)).getD [] := by
  induction fns with
  | nil => intro g n e hm; simp at hm
  | cons p rest ih =>
    intro g n e hm hc
    rw [List.foldl_cons]
    rcases List.mem_cons.mp hm with he | hm'
    · obtain ⟨cv, hcv⟩ := Option.isSome_iff_exists.mp hc
      apply mem_group_foldl
      have hstep : groupStep g p = addToGroup g (locationKey e) n := by
        subst he
        simp [groupStep, hcv]
      rw [hstep, lookup_addToGroup_eq]
      simp
    · exact ih (groupStep g p) n e hm' hc

/-- A successful lookup certifies membership. -/
theorem mem_of_lookup_eq_some {α : Type} (l : List (String × α)) (k : String)
    (v : α) (h : List.lookup k l = some v) : (k, v) ∈ l := by
  induction l with
  | nil => simp [List.lookup] at h
  | cons q rest ih =>
    obtain ⟨k1, v1⟩ := q
    by_cases he : k = k1
    · subst he
      simp only [List.lookup, beq_self_eq_true, Option.some.injEq] at h
      subst h
      exact List.mem_cons_self _ _
    · have hb : (k == k1) = false := beq_eq_false_iff_ne.mpr he
      simp only [List.lookup, hb] at h
      exact List.mem_cons_of_mem _ (ih h)

/-- A list holding two distinct elements has more than one element. -/
theorem one_lt_length_of_two_mem (l : List String) (x y : String)
    (hx : x ∈ l) (hy : y ∈ l) (hne : x ≠ y) : 1 < l.length := by
  match l with
  | [] => simp at hx
  | [z] =>
    simp only [List.mem_singleton] at hx hy
    exact absurd (hx.trans hy.symm) hne
  | _ :: _ :: _ => simp [List.length]

/-- Sorted insertion preserves membership. -/
theorem mem_insertSorted (s a : String) (l : List String) :
    a ∈ insertSorted s l ↔ a = s ∨ a ∈ l := by
  induction l with
  | nil => simp [insertSorted]
  | cons x xs ih =>
    unfold insertSorted
    by_cases hb : strLeB s.data x.data
    · simp [hb]
    · simp [hb, ih]
      tauto

/-- Sorting preserves membership. -/
theorem mem_sortStrings (a : String) (l : List String) :
    a ∈ sortStrings l ↔ a ∈ l := by
  induction l with
  | nil => simp [sortStrings]
  | cons x xs ih =>
    unfold sortStrings at ih ⊢
    rw [List.foldr_cons, mem_insertSorted, ih, List.mem_cons]

/-- C1: when two distinct canonical alias names (entries carrying a
`cppName` back-reference) share one `(file, startLine, endLine)` triple,
`detectDuplicates` reports a group at their shared location containing
both names, and the run ends at the duplicate-error exit (non-zero
`process.exit(1)`) without writing the index artifact. -/
theorem duplicateConflictFatal (idx existing : FnIndex) (d a c : Bool)
    (n1 n2 : String) (e1 e2 : FnEntry)
    (hne : n1 ≠ n2)
    (h1 : (n1, e1) ∈ idx.functions) (h2 : (n2, e2) ∈ idx.functions)
    (hc1 : e1.cppName.isSome) (hc2 : e2.cppName.isSome)
    (hfile : e1.file = e2.file) (hstart : e1.startLine = e2.startLine)
    (hend : e1.endLine = e2.endLine) :
    (∃ g ∈ detectDuplicates idx.functions,
      g.1 = locationKey e1 ∧ n1 ∈ g.2 ∧ n2 ∈ g.2) ∧
    runFnGate idx existing d a c = (.duplicateError, none) := by
  have hkey : locationKey e2 = locationKey e1 := by
    unfold locationKey
    rw [hfile, hstart, hend]
  have hm1 : n1 ∈ (List.lookup (locationKey e1) (buildGroups idx.functions)).getD [] :=
    mem_group_of_mem idx.functions [] n1 e1 h1 hc1
  have hm2 : n2 ∈ (List.lookup (locationKey e1) (buildGroups idx.functions)).getD [] :=
    hkey ▸ mem_group_of_mem idx.functions [] n2 e2 h2 hc2
  obtain ⟨ns, hl⟩ : ∃ ns, List.lookup (locationKey e1) (buildGroups idx.functions) = some ns := by
    cases hl : List.lookup (locationKey e1) (buildGroups idx.functions) with
    | none => rw [hl] at hm1; simp at hm1
    | some ns => exact ⟨ns, rfl⟩
  rw [hl, Option.getD_some] at hm1 hm2
  have hmemg : (locationKey e1, ns) ∈ buildGroups idx.functions :=
    mem_of_lookup_eq_some _ _ _ hl
  have hlen : 1 < ns.length := one_lt_length_of_two_mem ns n1 n2 hm1 hm2 hne
  have hfil : (locationKey e1, ns) ∈
      (buildGroups idx.functions).filter (fun g => 1 < g.2.length) :=
    List.mem_filter.mpr ⟨hmemg, by simpa using hlen⟩
  have hdup : (locationKey e1, sortStrings ns) ∈ detectDuplicates idx.functions := by
    unfold detectDuplicates
    exact List.mem_map.mpr ⟨(locationKey e1, ns), hfil, rfl⟩
  refine ⟨⟨(locationKey e1, sortStrings ns), hdup, rfl,
    (mem_sortStrings n1 ns).mpr hm1, (mem_sortStrings n2 ns).mpr hm2⟩, ?_⟩
  unfold runFnGate
  rw [if_neg]
  intro hnil
  rw [hnil] at hdup
  simp at hdup

/-- Witness for C1: an index in which aliases `bar` and `foo` both carry a
back-reference and share the location `a.cc:1:3` triggers the fatal
duplicate branch with both names listed under their shared location. -/
theorem duplicateConflictFatal_w :
    (∃ g ∈ detectDuplicates
        [("opFoo", ⟨"a.cc", 1, 3, "opcode", "c", none⟩),
         ("foo", ⟨"a.cc", 1, 3, "opcode", "c", some "opFoo"⟩),
         ("bar", ⟨"a.cc", 1, 3, "opcode", "c", some "opBar"⟩)],
      g.1 = locationKey ⟨"a.cc", 1, 3, "opcode", "c", some "opFoo"⟩ ∧
      "foo" ∈ g.2 ∧ "bar" ∈ g.2) ∧
    runFnGate ⟨some "c",
        [("opFoo", ⟨"a.cc", 1, 3, "opcode", "c", none⟩),
         ("foo", ⟨"a.cc", 1, 3, "opcode", "c", some "opFoo"⟩),
         ("bar", ⟨"a.cc", 1, 3, "opcode", "c", some "opBar"⟩)]⟩
      ⟨some "c", []⟩ false true true = (.duplicateError, none) :=
  duplicateConflictFatal
    ⟨some "c",
      [("opFoo", ⟨"a.cc", 1, 3, "opcode", "c", none⟩),
       ("foo", ⟨"a.cc", 1, 3, "opcode", "c", some "opFoo"⟩),
       ("bar", ⟨"a.cc", 1, 3, "opcode", "c", some "opBar"⟩)]⟩
    ⟨some "c", []⟩ false true true "foo" "bar"
    ⟨"a.cc", 1, 3, "opcode", "c", some "opFoo"⟩
    ⟨"a.cc", 1, 3, "opcode", "c", some "opBar"⟩
    (by decide) (by decide) (by decide) (by decide) (by decide) rfl rfl rfl

/-- Cutting at the first `//` occurrence yields a `//`-free result. -/
theorem containsSub_cutAtSlashes (cs : List Char) :
    containsSub ['/', '/'] (cutAtSlashes cs) = false := by
  induction cs with
  | nil => rfl
  | cons c rest ih =>
    unfold cutAtSlashes
    by_cases hs : startsWithL ['/', '/'] (c :: rest) = true
    · rw [if_pos hs]
      rfl
    · rw [if_neg hs]
      unfold containsSub
      rw [ih, Bool.or_false]
      by_cases hc : c = '/'
      · subst hc
        have hr : startsWithL ['/'] rest = false := by
          by_contra hx
          apply hs
          simp only [startsWithL, beq_self_eq_true, Bool.true_and]
          exact Bool.of_not_eq_false hx
        cases rest with
        | nil => rfl
        | cons d rest' =>
          simp only [startsWithL, beq_self_eq_true, Bool.true_and]
          have hd : ('/' == d) = false := by
            simpa [startsWithL] using hr
          unfold cutAtSlashes
          split
          · rfl
          · simpa [startsWithL] using hd
      · simp [startsWithL, beq_eq_false_iff_ne.mpr (fun h => hc h.symm)]

/-- A pattern occurrence at the head of a truncated list is one at the
head of the full list. -/
theorem startsWithL_of_take (pat : List Char) :
    ∀ (m : Nat) (l : List Char),
      startsWithL pat (List.take m l) = true → startsWithL pat l = true := by
  induction pat with
  | nil => intro m l _; rfl
  | cons p ps ih =>
    intro m l h
    cases m with
    | zero => simp [startsWithL] at h
    | succ m' =>
      cases l with
      | nil => simp [startsWithL] at h
      | cons x xs =>
        rw [List.take_succ_cons] at h
        simp only [startsWithL, Bool.and_eq_true] at h ⊢
        exact ⟨h.1, ih m' xs h.2⟩

/-- A pattern occurring in a prefix occurs in the full list. -/
theorem containsSub_of_take (pat : List Char) :
    ∀ (l : List Char) (m : Nat),
      containsSub pat (List.take m l) = true → containsSub pat l = true := by
  intro l
  induction l with
  | nil => intro m h; simpa using h
  | cons c cs ih =>
    intro m h
    cases m with
    | zero =>
      simp only [List.take_zero] at h
      cases pat <;> simp_all [containsSub, startsWithL]
    | succ m' =>
      rw [List.take_succ_cons] at h
      unfold containsSub at h ⊢
      rcases (Bool.or_eq_true _ _).mp h with h1 | h2
      · rw [show (c :: List.take m' cs) = List.take (m' + 1) (c :: cs) from rfl] at h1
        rw [startsWithL_of_take pat (m' + 1) (c :: cs) h1]
        rfl
      · rw [ih m' h2, Bool.or_true]

/-- A pattern occurring after a front trim occurs in the full list. -/
theorem containsSub_of_dropWhile (pat : List Char) (q : Char → Bool) :
    ∀ (l : List Char),
      containsSub pat (l.dropWhile q) = true → containsSub pat l = true := by
  intro l
  induction l with
  | nil => intro h; simpa using h
  | cons c cs ih =>
    intro h
    rw [List.dropWhile_cons] at h
    unfold containsSub
    by_cases hq : q c = true
    · rw [if_pos hq] at h
      rw [ih h, Bool.or_true]
    · rw [if_neg hq] at h
      exact h

/-- Any run of front trimming is a plain drop. -/
theorem dropWhile_eq_drop_aux (q : Char → Bool) :
    ∀ (l : List Char), ∃ j, l.dropWhile q = l.drop j := by
  intro l
  induction l with
  | nil => exact ⟨0, rfl⟩
  | cons c cs ih =>
    by_cases hq : q c = true
    · obtain ⟨j, hj⟩ := ih
      exact ⟨j + 1, by rw [List.dropWhile_cons, if_pos hq, hj]; rfl⟩
    · exact ⟨0, by rw [List.dropWhile_cons, if_neg hq]; rfl⟩

/-- Trimming both ends cannot introduce a pattern occurrence. -/
theorem containsSub_trimChars (pat : List Char) (l : List Char)
    (h : containsSub pat l = false) : containsSub pat (trimChars l) = false := by
  by_contra hx
  apply absurd h
  simp only [Bool.not_eq_false] at hx ⊢
  unfold trimChars at hx
  obtain ⟨j, hj⟩ := dropWhile_eq_drop_aux Char.isWhitespace (l.dropWhile Char.isWhitespace).reverse
  rw [hj, List.drop_reverse, List.reverse_reverse] at hx
  exact containsSub_of_dropWhile pat Char.isWhitespace l
    (containsSub_of_take pat (l.dropWhile Char.isWhitespace) _ hx)

/-- Per-line guarantees of the define extractor: a produced entry records
the given 1-indexed line number, its name does not begin with an
underscore, its value holds no `//`, and its category is a table entry
the name starts with (sans trailing underscore) or `OTHER`. -/
theorem defineEntryOfLine_props (i : Nat) (l : String) (n : String) (e : DefEntry)
    (h : defineEntryOfLine i l = some (n, e)) :
    e.line = i ∧ startsWithL ['_'] n.data = false ∧
    containsSub ['/', '/'] e.value.data = false ∧
    (e.pfx = "OTHER" ∨
      ∃ p ∈ KNOWN_PFXS, e.pfx = stripTrailUnd p ∧ startsWithL p.data n.data = true) := by
  simp only [defineEntryOfLine] at h
  split at h
  · split at h
    · simp at h
    · next name rawValue =>
      split at h
      · simp at h
      · split at h
        · simp at h
        · next hund =>
          rcases h with ⟨rfl, rfl⟩
          refine ⟨rfl, by simpa using hund, ?_, ?_⟩
          · exact containsSub_trimChars _ _ (containsSub_cutAtSlashes _)
          · unfold getPfx
            split
            · next p hp =>
              right
              exact ⟨p, List.mem_of_find?_eq_some hp, rfl,
                by simpa using List.find?_some hp⟩
            · left; rfl
  · simp at h

/-- An entry of an object after one assignment was already present or is
the assigned pair. -/
theorem mem_objInsert {α : Type} (m : List (String × α)) (k : String) (v : α)
    (p : String × α) (h : p ∈ objInsert m k v) : p ∈ m ∨ p = (k, v) := by
  induction m with
  | nil => simpa [objInsert] using h
  | cons q rest ih =>
    obtain ⟨k', v'⟩ := q
    unfold objInsert at h
    split at h
    · next hb =>
      rcases List.mem_cons.mp h with rfl | hm
      · right
        rw [beq_iff_eq.mp hb]
      · left
        exact List.mem_cons_of_mem _ hm
    · rcases List.mem_cons.mp h with rfl | hm
      · left
        exact List.mem_cons_self _ _
      · rcases ih hm with h1 | h2
        · left; exact List.mem_cons_of_mem _ h1
        · right; exact h2

/-- An assembled define entry originates from the parse of the line its
recorded (1-indexed) line number points at. -/
def defineEntrySound (lines : List String) (p : String × DefEntry) : Prop :=
  1 ≤ p.2.line ∧ p.2.line ≤ lines.length ∧
  ∃ l, lines.get? (p.2.line - 1) = some l ∧ defineEntryOfLine p.2.line l = some p

/-- Soundness of the accumulating loop of `parseDefines`. -/
theorem parseDefinesAux_sound (lines : List String) :
    ∀ (ls : List String) (k : Nat) (acc : List (String × DefEntry)),
      lines.drop k = ls →
      (∀ p ∈ acc, defineEntrySound lines p) →
      ∀ p ∈ parseDefinesAux ls k acc, defineEntrySound lines p := by
  intro ls
  induction ls with
  | nil =>
    intro k acc _ hacc p hp
    exact hacc p hp
  | cons l rest ih =>
    intro k acc hdrop hacc p hp
    have hget : lines.get? k = some l := by
      have := List.get?_drop lines k 0
      rw [hdrop] at this
      simpa using this.symm
    have hrest : lines.drop (k + 1) = rest := by
      have := List.tail_drop lines k
      rw [hdrop] at this
      simpa using this.symm
    have hk : k < lines.length := List.get?_eq_some.mp hget |>.1
    unfold parseDefinesAux at hp
    split at hp
    · next n0 e0 heq =>
      refine ih (k + 1) _ hrest ?_ p hp
      intro q hq
      rcases mem_objInsert _ _ _ _ hq with hq1 | hq2
      · exact hacc q hq1
      · subst hq2
        have hline : e0.line = k + 1 := (defineEntryOfLine_props _ _ _ _ heq).1
        refine ⟨?_, ?_, l, ?_, ?_⟩
        · show 1 ≤ e0.line
          omega
        · show e0.line ≤ lines.length
          omega
        · show lines.get? (e0.line - 1) = some l
          rw [hline]
          simpa using hget
        · show defineEntryOfLine e0.line l = some (n0, e0)
          rw [hline]
          exact heq
    · exact ih (k + 1) _ hrest hacc p hp

/-- A list starts with itself followed by anything. -/
theorem startsWithL_append_self (p x : List Char) :
    startsWithL p (p ++ x) = true := by
  induction p with
  | nil => rfl
  | cons c cs ih => simpa [startsWithL] using ih

/-- Literal expectation of a leading copy of itself succeeds. -/
theorem litChars_append_self (p x : List Char) :
    litChars p (p ++ x) = some x := by
  induction p with
  | nil => rfl
  | cons c cs ih => simpa [litChars] using ih

/-- A word character is not whitespace. -/
theorem wordChar_not_ws (c : Char) (h : isWordChar c = true) :
    c.isWhitespace = false := by
  by_contra hx
  have hws : c.isWhitespace = true := by simpa using hx
  simp only [Char.isWhitespace, Bool.or_eq_true, decide_eq_true_eq] at hws
  rcases hws with ((rfl | rfl) | rfl) | rfl <;> simp [isWordChar] at h

/-- Skipping over characters failing the scan predicate stops at the
first such run's end. -/
theorem dropWhile_append_false (q : Char → Bool) (l : List Char) (x : Char)
    (r : List Char) (hl : ∀ c ∈ l, q c = false) (hx : q x = false) :
    (l ++ x :: r).dropWhile q = l ++ x :: r := by
  cases l with
  | nil => simp [List.dropWhile_cons, hx]
  | cons c cs =>
    have := hl c (List.mem_cons_self c cs)
    simp [List.dropWhile_cons, this]

/-- Dropping a run of satisfied characters continues past them. -/
theorem dropWhile_append_true (q : Char → Bool) (l : List Char) (x : Char)
    (r : List Char) (hl : ∀ c ∈ l, q c = true) (hx : q x = false) :
    (l ++ x :: r).dropWhile q = x :: r := by
  induction l with
  | nil => simp [List.dropWhile_cons, hx]
  | cons c cs ih =>
    have hc := hl c (List.mem_cons_self c cs)
    rw [List.cons_append, List.dropWhile_cons, if_pos hc]
    exact ih (fun d hd => hl d (List.mem_cons_of_mem c hd))

/-- `DEFINE_PATTERN` fails on a line whose define name is directly
followed by an opening parenthesis: the mandatory whitespace after the
name capture cannot match. -/
theorem defMatch_paren (nm tb : List Char) (h : nm.all isWordChar = true) :
    defMatch ("#define ".data ++ (nm ++ '(' :: tb)) = none := by
  have hsplit : "#define ".data = "#define".data ++ [' '] := rfl
  rw [hsplit, List.append_assoc]
  unfold defMatch
  rw [litChars_append_self]
  simp only [List.singleton_append]
  have hw : wsReq (' ' :: (nm ++ '(' :: tb)) = some (nm ++ '(' :: tb) := by
    show (if (' ' : Char).isWhitespace then some (wsSkip (nm ++ '(' :: tb)) else none) = _
    rw [if_pos (by decide)]
    unfold wsSkip
    rw [dropWhile_append_false Char.isWhitespace nm '(' tb
      (fun c hc => wordChar_not_ws c (List.all_eq_true.mp h c hc)) (by decide)]
  rw [hw]
  cases nm with
  | nil =>
    simp only [List.nil_append]
    rfl
  | cons c cs =>
    simp only [List.cons_append]
    by_cases hca : (c.isAlpha || c == '_') = true
    · rw [if_pos hca]
      have hdw : List.dropWhile isWordChar (cs ++ '(' :: tb) = '(' :: tb := by
        apply dropWhile_append_true
        · intro d hd
          exact List.all_eq_true.mp h d (List.mem_cons_of_mem c hd)
        · decide
      rw [hdw]
      rfl
    · rw [if_neg hca]

/-- The trim of a define line ending in arbitrary text keeps the head
intact up to the opening parenthesis. -/
theorem trimChars_define_paren (nm r2 : List Char) :
    ∃ tb, trimChars ("#define ".data ++ (nm ++ '(' :: r2)) =
      "#define ".data ++ (nm ++ '(' :: tb) := by
  unfold trimChars
  have h1 : ("#define ".data ++ (nm ++ '(' :: r2)).dropWhile Char.isWhitespace =
      "#define ".data ++ (nm ++ '(' :: r2) := by
    show List.dropWhile Char.isWhitespace ('#' :: ("define ".data ++ (nm ++ '(' :: r2))) = _
    rw [List.dropWhile_cons, if_neg (by decide)]
    rfl
  rw [h1]
  have h2 : ("#define ".data ++ (nm ++ '(' :: r2)) =
      (("#define ".data ++ nm) ++ ['(']) ++ r2 := by
    simp [List.append_assoc]
  rw [h2, List.reverse_append, List.dropWhile_append]
  split
  · rw [List.reverse_append, List.reverse_append]
    refine ⟨[], ?_⟩
    simp [List.append_assoc]
  · next hne =>
    rw [List.reverse_append]
    refine ⟨(r2.reverse.dropWhile Char.isWhitespace).reverse, ?_⟩
    rw [List.reverse_append, List.reverse_append, List.reverse_reverse]
    simp [List.append_assoc]

/-- C10: every entry the define extractor creates has a name not starting
with an underscore, records the 1-indexed number of the line it was
parsed from, a value free of any `//` comment remnant, and a category
that is a known name-class table entry (sans trailing underscore) or
`OTHER`; and a function-like macro — an opening parenthesis directly
after the name — never produces an entry. -/
theorem defineExtractorGuarantees :
    (∀ (lines : List String) (n : String) (e : DefEntry),
      (n, e) ∈ parseDefines lines →
      startsWithL ['_'] n.data = false ∧
      1 ≤ e.line ∧ e.line ≤ lines.length ∧
      (∃ l, lines.get? (e.line - 1) = some l ∧
        defineEntryOfLine e.line l = some (n, e)) ∧
      containsSub ['/', '/'] e.value.data = false ∧
      (e.pfx = "OTHER" ∨
        ∃ p ∈ KNOWN_PFXS, e.pfx = stripTrailUnd p ∧ startsWithL p.data n.data = true)) ∧
    (∀ (i : Nat) (nm r2 : String), nm.data.all isWordChar = true →
      defineEntryOfLine i ("#define " ++ nm ++ "(" ++ r2) = none) := by
  constructor
  · intro lines n e hm
    have hs := parseDefinesAux_sound lines lines 0 [] rfl (by simp) (n, e) hm
    obtain ⟨h1, h2, l, hget, hparse⟩ := hs
    have props := defineEntryOfLine_props e.line l n e hparse
    exact ⟨props.2.1, h1, h2, ⟨l, hget, hparse⟩, props.2.2.1, props.2.2.2⟩
  · intro i nm r2 h
    have hdata : ("#define " ++ nm ++ "(" ++ r2).data =
        "#define ".data ++ (nm.data ++ '(' :: r2.data) := by
      simp [String.data_append, List.append_assoc]
    simp only [defineEntryOfLine]
    rw [hdata]
    obtain ⟨tb, htb⟩ := trimChars_define_paren nm.data r2.data
    rw [htb]
    rw [if_pos (by
      rw [show "#define ".data ++ (nm.data ++ '(' :: tb) =
        "#define".data ++ ([' '] ++ (nm.data ++ '(' :: tb)) from rfl]
      exact startsWithL_append_self _ _)]
    rw [defMatch_paren nm.data tb h]

/-- Witness for C10: a small synthetic header in which only the plain
`PERK_`-categorised define survives, and a concrete function-like macro
line producing no entry. -/
theorem defineExtractorGuarantees_w :
    (("PERK_bonus" : String),
      (⟨1, "5", "PERK"⟩ : DefEntry)) ∈
        parseDefines ["#define PERK_bonus 5 // comment", "#define _HIDDEN 1"] ∧
    startsWithL ['_'] ("PERK_bonus" : String).data = false ∧
    containsSub ['/', '/'] ("5" : String).data = false ∧
    defineEntryOfLine 7 ("#define " ++ "MAX" ++ "(" ++ "a, b) ((a)>(b))") = none := by
  refine ⟨by decide, ?_, ?_, ?_⟩
  · exact (defineExtractorGuarantees.1
      ["#define PERK_bonus 5 // comment", "#define _HIDDEN 1"]
      "PERK_bonus" ⟨1, "5", "PERK"⟩ (by decide)).1
  · exact (defineExtractorGuarantees.1
      ["#define PERK_bonus 5 // comment", "#define _HIDDEN 1"]
      "PERK_bonus" ⟨1, "5", "PERK"⟩ (by decide)).2.2.2.2.1
  · exact defineExtractorGuarantees.2 7 "MAX" "a, b) ((a)>(b))" (by decide)

/-! ## Synthetic dispatch-routine files for the metarule extractor -/

/-- A neutral case-body line: no braces, no case/break/default shape. -/
def mrBodyLine : String := "        doStuff;"

/-- Tail of the synthetic dispatch file whose branch ends at a `break`. -/
def mrTailBreak : List String := ["        break;", "    \x7d", "\x7d"]

/-- Tail of the synthetic dispatch file whose branch runs to the
enclosing block's close. -/
def mrTailClose : List String := ["    \x7d", "\x7d"]

/-- The dispatch routine with a `METARULE_PARTY_COUNT` case, `k` body
lines, and a terminating `break`. -/
def mrFileBreak (k : Nat) : List String :=
  ["static void opMetarule(Program* program)", "\x7b", "    switch (op) \x7b",
   "    case METARULE_PARTY_COUNT:"] ++ List.replicate k mrBodyLine ++ mrTailBreak

/-- The dispatch routine with a `METARULE_PARTY_COUNT` case, `k` body
lines, and no `break` before the switch block closes. -/
def mrFileClose (k : Nat) : List String :=
  ["static void opMetarule(Program* program)", "\x7b", "    switch (op) \x7b",
   "    case METARULE_PARTY_COUNT:"] ++ List.replicate k mrBodyLine ++ mrTailClose

/-- The body line triggers neither the dispatch-header test nor any of
the stop patterns. -/
theorem mrBody_headerFalse :
    (lineContains mrBodyLine "void opMetarule(Program* program)"
      || lineContains mrBodyLine "static void opMetarule(Program* program)") = false := rfl

/-- The body line is no metarule case. -/
theorem mrBody_caseNone : matchCaseMetarule mrBodyLine = none := rfl

/-- The body line is brace-neutral. -/
theorem mrBody_delta : braceDelta mrBodyLine = 0 := rfl

/-- The body line holds no closing brace. -/
theorem mrBody_closeFalse : lineContains mrBodyLine "\x7d" = false := rfl

/-- The inner case-end scan walks past a run of body lines. -/
theorem findCaseEndAux_body (k : Nat) :
    ∀ (rest : List String) (j dflt : Nat),
      findCaseEndAux (List.replicate k mrBodyLine ++ rest) j dflt =
      findCaseEndAux rest (j + k) dflt := by
  induction k with
  | zero => intro rest j dflt; simp
  | succ k ih =>
    intro rest j dflt
    rw [List.replicate_succ, List.cons_append]
    show findCaseEndAux (List.replicate k mrBodyLine ++ rest) (j + 1) dflt = _
    rw [ih]
    congr 1
    omega

/-- The outer line loop walks past a run of body lines unchanged apart
from the line index. -/
theorem pmAux_body (rp : String) (k : Nat) :
    ∀ (rest : List String) (bc : Int) (i : Nat) (acc : List (String × MetaEntry)),
      parseMetaruleAux rp (List.replicate k mrBodyLine ++ rest) i true bc acc =
      parseMetaruleAux rp rest (i + k) true bc acc := by
  induction k with
  | zero => intro rest bc i acc; simp
  | succ k ih =>
    intro rest bc i acc
    rw [List.replicate_succ, List.cons_append]
    have hstep : parseMetaruleAux rp
        (mrBodyLine :: (List.replicate k mrBodyLine ++ rest)) i true bc acc =
        parseMetaruleAux rp (List.replicate k mrBodyLine ++ rest) (i + 1) true bc acc := by
      simp [parseMetaruleAux, mrBody_headerFalse, mrBody_caseNone, mrBody_delta,
        mrBody_closeFalse]
    rw [hstep, ih]
    congr 1
    omega

/-- After its case was recorded, the break-terminated tail leaves the
accumulated entries untouched. -/
theorem pmAux_tailBreak (rp : String) (i : Nat) (acc : List (String × MetaEntry)) :
    parseMetaruleAux rp mrTailBreak i true 2 acc = acc := rfl

/-- After its case was recorded, the close-terminated tail leaves the
accumulated entries untouched. -/
theorem pmAux_tailClose (rp : String) (i : Nat) (acc : List (String × MetaEntry)) :
    parseMetaruleAux rp mrTailClose i true 2 acc = acc := rfl

/-- C5: `METARULE_PARTY_COUNT` is in the fixed table with value
`party_member_count`, and for the synthetic dispatch routine (any body
length `k`) the extractor creates exactly the index entry keyed
`party_member_count` with the dispatch-case kind `metarule`, extent
starting at the `case` line (line 4) and ending at the next sibling
`break` line (`k + 5`) — or, when no `break` intervenes, at the enclosing
block's close (the line before the closing brace, `k + 4`). -/
theorem metaruleCaseEntry (rp : String) (k : Nat) :
    List.lookup "METARULE_PARTY_COUNT" METARULE_SSL_NAMES = some "party_member_count" ∧
    parseMetaruleCases rp (mrFileBreak k) =
      [("party_member_count", ⟨rp, 4, k + 5, "metarule", "opMetarule",
        "METARULE_PARTY_COUNT"⟩)] ∧
    parseMetaruleCases rp (mrFileClose k) =
      [("party_member_count", ⟨rp, 4, k + 4, "metarule", "opMetarule",
        "METARULE_PARTY_COUNT"⟩)] := by
  refine ⟨rfl, ?_, ?_⟩
  · have h0 : parseMetaruleCases rp (mrFileBreak k) =
        parseMetaruleAux rp (List.replicate k mrBodyLine ++ mrTailBreak) 4 true 2
          [("party_member_count",
            ⟨rp, 4, findCaseEndAux (List.replicate k mrBodyLine ++ mrTailBreak) 4 4,
             "metarule", "opMetarule", "METARULE_PARTY_COUNT"⟩)] := rfl
    have hE : findCaseEndAux (List.replicate k mrBodyLine ++ mrTailBreak) 4 4 = k + 5 := by
      rw [findCaseEndAux_body]
      show 4 + k + 1 = k + 5
      omega
    rw [h0, hE, pmAux_body, pmAux_tailBreak]
  · have h0 : parseMetaruleCases rp (mrFileClose k) =
        parseMetaruleAux rp (List.replicate k mrBodyLine ++ mrTailClose) 4 true 2
          [("party_member_count",
            ⟨rp, 4, findCaseEndAux (List.replicate k mrBodyLine ++ mrTailClose) 4 4,
             "metarule", "opMetarule", "METARULE_PARTY_COUNT"⟩)] := rfl
    have hE : findCaseEndAux (List.replicate k mrBodyLine ++ mrTailClose) 4 4 = k + 4 := by
      rw [findCaseEndAux_body]
      show 4 + k = k + 4
      omega
    rw [h0, hE, pmAux_body, pmAux_tailClose]

/-! ## Last-write-wins law of the annotation merge -/

/-- Lookup after one property assignment. -/
theorem lookup_objInsert {α : Type} (m : List (String × α)) (k : String) (v : α)
    (k' : String) :
    List.lookup k' (objInsert m k v) = if k' = k then some v else List.lookup k' m := by
  induction m with
  | nil =>
    by_cases he : k' = k
    · simp [objInsert, List.lookup, he]
    · simp [objInsert, List.lookup, he, beq_eq_false_iff_ne.mpr he]
  | cons q rest ih =>
    obtain ⟨k1, v1⟩ := q
    unfold objInsert
    by_cases h1 : k1 = k
    · subst h1
      rw [if_pos (beq_self_eq_true k1)]
      by_cases he : k' = k1
      · simp [List.lookup, he]
      · simp [List.lookup, he, beq_eq_false_iff_ne.mpr he]
    · rw [if_neg (by simpa using h1)]
      by_cases he : k' = k1
      · subst he
        simp [List.lookup, if_neg (by exact h1)]
      · simp [List.lookup, beq_eq_false_iff_ne.mpr he, ih]

/-- The accumulating fold behind `lastBind`, for an arbitrary seed. -/
theorem lastBind_foldl (k : String) (ps : List (String × String)) :
    ∀ (acc : Option String),
      ps.foldl (fun a p => if p.1 = k then some p.2 else a) acc =
      (match lastBind ps k with
       | some v => some v
       | none => acc) := by
  induction ps with
  | nil => intro acc; rfl
  | cons p rest ih =>
    intro acc
    rw [List.foldl_cons]
    rw [ih]
    show _ = (match rest.foldl (fun a q => if q.1 = k then some q.2 else a)
      (if p.1 = k then some p.2 else none) with
      | some v => some v
      | none => acc)
    rw [ih]
    cases lastBind rest k with
    | some v => rfl
    | none =>
      by_cases hp : p.1 = k
      · simp [hp]
      · simp [hp]

/-- Lookup through a whole `Object.assign` copy: the value of the last
assigned entry with the key, else the prior value. -/
theorem lookup_objAssign (ps : List (String × String)) :
    ∀ (m : List (String × String)) (k : String),
      List.lookup k (objAssign m ps) =
      (match lastBind ps k with
       | some v => some v
       | none => List.lookup k m) := by
  induction ps with
  | nil => intro m k; rfl
  | cons p rest ih =>
    intro m k
    show List.lookup k (objAssign (objInsert m p.1 p.2) rest) = _
    rw [ih]
    have hlb : lastBind (p :: rest) k =
        (match lastBind rest k with
         | some v => some v
         | none => if p.1 = k then some p.2 else none) := by
      show rest.foldl (fun a q => if q.1 = k then some q.2 else a)
        (if p.1 = k then some p.2 else none) = _
      rw [lastBind_foldl]
    rw [hlb, lookup_objInsert]
    cases lastBind rest k with
    | some v => rfl
    | none =>
      by_cases hp : p.1 = k
      · rw [if_pos hp.symm, if_pos hp]
      · rw [if_neg (fun h => hp h.symm), if_neg hp]

/-- Two consecutive `Object.assign` copies act like one over the
concatenated entry list. -/
theorem objAssign_append {α : Type} (m : List (String × α))
    (a b : List (String × α)) :
    objAssign (objAssign m a) b = objAssign m (a ++ b) := by
  unfold objAssign
  rw [List.foldl_append]

/-- The accumulated `allSslNames` is one `Object.assign` pass over the
whole annotation stream. -/
theorem buildAllSslNames_eq (files : List (List String)) :
    buildAllSslNames files = objAssign [] (annotStream files) := by
  unfold buildAllSslNames annotStream
  suffices h : ∀ (fs : List (List String)) (m : List (String × String)),
      fs.foldl (fun acc lines =>
        objAssign (objAssign acc (parseSourceFileComments lines))
          (parseOpcodeRegistrations lines).2) m =
      objAssign m (fs.flatMap (fun lines =>
        parseSourceFileComments lines ++ (parseOpcodeRegistrations lines).2)) by
    exact h files []
  intro fs
  induction fs with
  | nil => intro m; rfl
  | cons f rest ih =>
    intro m
    rw [List.foldl_cons, List.flatMap_cons, ih, objAssign_append, objAssign_append,
      List.append_assoc]

/-- C4 (amended): the annotation-to-alias mapping obeys a last-write-wins
law: its value for every symbol is the value of the last annotation for
that symbol in scan order, where each file contributes its comment-derived
annotations and then its registration-derived annotations, file after
file — so a later discovery overwrites an earlier one. -/
theorem annotationLastWins (files : List (List String)) (key : String) :
    List.lookup key (buildAllSslNames files) = lastBind (annotStream files) key := by
  rw [buildAllSslNames_eq, lookup_objAssign]
  cases lastBind (annotStream files) key with
  | some v => rfl
  | none => rfl

/-- A file in which the definition of `opFoo` carries the comment
annotation `self_obj` (encountered first) and its registration carries
the annotation `op_other_name` (encountered later in the same scan). -/
def annotConflictFile : List String :=
  ["// self_obj",
   "static void opFoo(Program* program)",
   "\x7b",
   "\x7d",
   "interpreterRegisterOpcode(OPCODE_FOO, opFoo)// op_other_name"]

/-- Counterexample to C4 as stated: the comment annotation `self_obj` is
discovered first during the scan, the registration annotation
`other_name` later, yet the final mapping holds `other_name` — the later
discovery did overwrite the earlier entry. -/
theorem annotationFirstWins_cex :
    parseSourceFileComments annotConflictFile = [("opFoo", "self_obj")] ∧
    (parseOpcodeRegistrations annotConflictFile).2 = [("opFoo", "other_name")] ∧
    List.lookup "opFoo" (buildAllSslNames [annotConflictFile]) = some "other_name" ∧
    ("other_name" : String) ≠ "self_obj" := by
  refine ⟨by decide, by decide, by decide, by decide⟩
